import Mathlib

/-
Verification of the matching core of the zero-alloc-lob limit order book.

The embedding translates src/src/engine/book.rs, src/src/engine/matcher.rs
and src/src/storage/layout.rs into pure Lean functions:

* The two intrusive doubly-linked chains (best_bid / best_ask with next and
  prev fields in each record) are represented as Lean lists, head first; the
  next and prev pointers of the source are realized by list adjacency, and
  the head pointer by the head of the list.  unlink becomes removal of the
  record from the list, insert_sorted the corresponding list insertion.
* Arena slots are identified by their allocation index (addr); the bump
  allocator is the counter usedSlots, the free list a stack of addresses.
* order_index (a HashMap) is an association list, first match wins, which
  matches HashMap behaviour because the code only inserts a key after
  checking it is absent.
* Records that execute_match unlinks from a chain while leaving their id in
  order_index (the code performs only book.remove_order on a filled maker)
  stay reachable through the index; they are kept in the ghosts pool.
* Each record carries a ghost field arrival, a global insertion sequence
  number used only to state time priority; no operation reads it.
-/

namespace LOB

/-- Side of the book, from storage/layout.rs. -/
inductive Side where
  | Buy
  | Sell
  deriving DecidableEq, Repr, Inhabited

/-- Trade event, from engine/matcher.rs. -/
structure Trade where
  maker_id : Nat
  taker_id : Nat
  price : Nat
  quantity : Nat
  maker_side : Side
  deriving DecidableEq, Repr, Inhabited

/-- One order record, from storage/layout.rs.  The intrusive next and prev
fields are realized by the position of the record in a chain list; addr is
the identity of the arena slot holding the record (pointer identity in the
source); arrival is a ghost insertion stamp used only in specifications. -/
structure Order where
  id : Nat
  price : Nat
  qty : Nat
  side : Side
  addr : Nat
  arrival : Nat
  deriving DecidableEq, Repr, Inhabited

/-- Failure modes of the facade operations.  duplicateId and notFound stand
for the two string errors built in engine/book.rs.  capacityAbort is the
outcome of the allocation site when the free list is empty and the arena is
full.  Modelled from the spec: the Fixed Record Arena is an external
capability whose alloc, returning a bare reference, aborts once capacity is
reached; the Rust call site has no error path there, so nothing (in
particular no trade list) is returned to the caller in that case. -/
inductive BookError where
  | duplicateId
  | notFound
  | capacityAbort
  deriving DecidableEq, Repr

/-- The order book state, from engine/book.rs.  bids and asks are the two
chains; ghosts holds records that the matcher unlinked from a chain while
their id is still present in the index (the source keeps those bytes in the
arena, reachable only through order_index); index is order_index; freeList
is free_list (a stack, last pushed first); usedSlots counts records handed
out by the bump arena and capSlots the construction capacity in orders;
stamp is the ghost arrival counter. -/
structure Book where
  bids : List Order
  asks : List Order
  ghosts : List Order
  index : List (Nat × Nat)
  freeList : List Nat
  usedSlots : Nat
  capSlots : Nat
  stamp : Nat
  deriving DecidableEq, Repr

/-- Lookup in order_index: first entry with the given key. -/
def idxLookup : List (Nat × Nat) → Nat → Option Nat
  | [], _ => none
  | e :: rest, k => if e.1 = k then some e.2 else idxLookup rest k

/-- Removal from order_index: drops the entry idxLookup finds. -/
def idxRemove : List (Nat × Nat) → Nat → List (Nat × Nat)
  | [], _ => []
  | e :: rest, k => if e.1 = k then rest else e :: idxRemove rest k

/-- Unlink the record stored at slot a from a chain (book.rs remove_order
restricted to one chain): drop the unique record with that address, leaving
every other record in place.  If no record of the chain has address a the
chain is untouched, which is exactly what the pointer surgery of the source
does to a record whose links are already cleared. -/
def eraseAddr (a : Nat) : List Order → List Order
  | [] => []
  | r :: rest => if r.addr = a then rest else r :: eraseAddr a rest

/-- In-place write of a record quantity through its slot address (the source
writes order.qty through the pointer). -/
def updQty (a q : Nat) : List Order → List Order
  | [] => []
  | r :: rest => (if r.addr = a then { r with qty := q } else r) :: updQty a q rest

/-- Dereference a slot address (the source just follows the pointer; every
live record sits in a chain or in the ghost pool). -/
def findAddr (a : Nat) : List Order → Option Order
  | [] => none
  | r :: rest => if r.addr = a then some r else findAddr a rest

/-- Crossing test of matcher.rs step 5: a Buy taker crosses when its limit
is at least the maker price, a Sell taker when its limit is at most the
maker price. -/
def crossesAt : Side → Nat → Nat → Prop
  | Side.Buy, takerPrice, makerPrice => makerPrice ≤ takerPrice
  | Side.Sell, takerPrice, makerPrice => takerPrice ≤ makerPrice

instance : ∀ s tp mp, Decidable (crossesAt s tp mp)
  | Side.Buy, _, _ => Nat.decLe _ _
  | Side.Sell, _, _ => Nat.decLe _ _

/-- Walk condition of book.rs insert_sorted: stop (insert before the current
record) at the first strictly worse price for the inserted side. -/
def insertBeforeAt : Side → Nat → Nat → Prop
  | Side.Buy, price, currPrice => currPrice < price
  | Side.Sell, price, currPrice => price < currPrice

instance : ∀ s p cp, Decidable (insertBeforeAt s p cp)
  | Side.Buy, _, _ => Nat.decLt _ _
  | Side.Sell, _, _ => Nat.decLt _ _

/-- book.rs insert_sorted: walk from the head, splice the new record in
front of the first record with a strictly worse price, hence after every
record with an equal price. -/
def insertSorted (side : Side) (r : Order) : List Order → List Order
  | [] => [r]
  | c :: rest =>
    if insertBeforeAt side r.price c.price then r :: c :: rest
    else c :: insertSorted side r rest

/-- Result of one matching loop (matcher.rs execute_match): the unfilled
taker quantity, the emitted trades, the surviving opposite chain, and the
makers that were fully filled, hence unlinked from the chain; the source
leaves the latter in the arena with their id still in order_index. -/
structure MatchRes where
  remaining : Nat
  trades : List Trade
  chain : List Order
  filled : List Order
  deriving DecidableEq, Repr

/-- matcher.rs execute_match, as a recursion over the opposite chain.  Each
iteration of the source loop either stops (taker filled, empty side, or
spread not crossed), consumes the whole head maker and continues on the
tail, or partially fills the head maker, in which case the trade quantity
equals the whole remaining taker quantity and the following loop iteration
exits at the taker-filled check, so returning directly is the same. -/
def execMatch (takerId : Nat) (takerSide : Side) (takerPrice : Nat) :
    Nat → List Order → MatchRes
  | takerQty, [] =>
    { remaining := takerQty, trades := [], chain := [], filled := [] }
  | takerQty, maker :: rest =>
    if takerQty = 0 then
      { remaining := takerQty, trades := [], chain := maker :: rest, filled := [] }
    else if crossesAt takerSide takerPrice maker.price then
      let tradeQty := min takerQty maker.qty
      let t : Trade := { maker_id := maker.id, taker_id := takerId,
                         price := maker.price, quantity := tradeQty,
                         maker_side := maker.side }
      if maker.qty - tradeQty = 0 then
        let res := execMatch takerId takerSide takerPrice (takerQty - tradeQty) rest
        { remaining := res.remaining, trades := t :: res.trades,
          chain := res.chain, filled := { maker with qty := 0 } :: res.filled }
      else
        { remaining := takerQty - tradeQty, trades := [t],
          chain := { maker with qty := maker.qty - tradeQty } :: rest,
          filled := [] }
    else
      { remaining := takerQty, trades := [], chain := maker :: rest, filled := [] }

/-- Result of running the matcher inside place_limit_order. -/
structure RunRes where
  remaining : Nat
  trades : List Trade
  book : Book
  deriving DecidableEq, Repr

/-- The book-level effect of execute_match: a Buy taker consumes the ask
chain, a Sell taker the bid chain; fully filled makers move to the ghost
pool (unlinked, still indexed, slot not recycled — exactly what the source
does). -/
def Book.runMatch (b : Book) (takerId : Nat) (takerSide : Side)
    (takerPrice takerQty : Nat) : RunRes :=
  match takerSide with
  | Side.Buy =>
    let res := execMatch takerId Side.Buy takerPrice takerQty b.asks
    { remaining := res.remaining, trades := res.trades,
      book := { b with asks := res.chain, ghosts := res.filled ++ b.ghosts } }
  | Side.Sell =>
    let res := execMatch takerId Side.Sell takerPrice takerQty b.bids
    { remaining := res.remaining, trades := res.trades,
      book := { b with bids := res.chain, ghosts := res.filled ++ b.ghosts } }

/-- Write the freshly built record into its slot, sorted-insert it into its
own side and index it (book.rs place_limit_order steps after allocation).
The record receives the current ghost arrival stamp. -/
def Book.linkNewOrder (b : Book) (id : Nat) (side : Side) (price qty addr : Nat) :
    Book :=
  let r : Order := { id := id, price := price, qty := qty, side := side,
                     addr := addr, arrival := b.stamp }
  match side with
  | Side.Buy =>
    { b with bids := insertSorted Side.Buy r b.bids,
             index := (id, addr) :: b.index, stamp := b.stamp + 1 }
  | Side.Sell =>
    { b with asks := insertSorted Side.Sell r b.asks,
             index := (id, addr) :: b.index, stamp := b.stamp + 1 }

/-- book.rs place_limit_order: duplicate check, matching, then placement of
the remainder via the free list or a fresh arena slot.  When both the free
list and the arena are exhausted the source reaches the arena alloc with no
way to receive a failure, so the call aborts (capacityAbort) and the trades
accumulated so far are not returned. -/
def Book.placeLimitOrder (b : Book) (id : Nat) (side : Side) (price qty : Nat) :
    Except BookError (Option Nat × List Trade) × Book :=
  if (idxLookup b.index id).isSome then
    (.error .duplicateId, b)
  else if (b.runMatch id side price qty).remaining = 0 then
    (.ok (none, (b.runMatch id side price qty).trades),
      (b.runMatch id side price qty).book)
  else
    match (b.runMatch id side price qty).book.freeList with
    | recycled :: fl =>
      (.ok (some recycled, (b.runMatch id side price qty).trades),
        ({ (b.runMatch id side price qty).book with
           freeList := fl }).linkNewOrder id side price
          (b.runMatch id side price qty).remaining recycled)
    | [] =>
      if (b.runMatch id side price qty).book.usedSlots
          < (b.runMatch id side price qty).book.capSlots then
        (.ok (some (b.runMatch id side price qty).book.usedSlots,
            (b.runMatch id side price qty).trades),
          ({ (b.runMatch id side price qty).book with
             usedSlots := (b.runMatch id side price qty).book.usedSlots + 1
           }).linkNewOrder id side price
            (b.runMatch id side price qty).remaining
            (b.runMatch id side price qty).book.usedSlots)
      else
        (.error .capacityAbort, (b.runMatch id side price qty).book)

/-- book.rs cancel_order: remove the id from order_index, unlink the record
(a record the matcher already unlinked is unaffected by the pointer
surgery), push the slot onto the free list.  Erasing the address from the
ghost pool reflects that a freed slot's stale record is no longer reachable
at all; the source leaves the bytes in the arena but nothing references
them. -/
def Book.cancelOrder (b : Book) (id : Nat) : Except BookError Nat × Book :=
  match idxLookup b.index id with
  | none => (.error .notFound, b)
  | some a =>
    (.ok id,
      { b with index := idxRemove b.index id,
               bids := eraseAddr a b.bids,
               asks := eraseAddr a b.asks,
               ghosts := eraseAddr a b.ghosts,
               freeList := a :: b.freeList })

/-- Dereference the pointer stored in order_index for a given id. -/
def Book.findRec (b : Book) (a : Nat) : Option Order :=
  findAddr a (b.bids ++ b.asks ++ b.ghosts)

/-- In-place quantity write through a slot address. -/
def Book.setQty (b : Book) (a q : Nat) : Book :=
  { b with bids := updQty a q b.bids, asks := updQty a q b.asks,
           ghosts := updQty a q b.ghosts }

/-- book.rs modify_order: fast path shrinks the quantity in place (then
degenerates to a cancel at zero), slow path cancels and re-places with the
side read before the cancel.  The findAddr failure branch is unreachable
when the index is consistent: the source dereferences the stored pointer
unconditionally. -/
def Book.modifyOrder (b : Book) (id newPrice newQty : Nat) :
    Except BookError (Option Nat × List Trade) × Book :=
  match idxLookup b.index id with
  | none => (.error .notFound, b)
  | some a =>
    match b.findRec a with
    | none => (.error .notFound, b)
    | some r =>
      if r.price = newPrice ∧ newQty ≤ r.qty then
        let b1 := b.setQty a newQty
        if newQty = 0 then
          match b1.cancelOrder id with
          | (.ok _, b2) => (.ok (none, []), b2)
          | (.error e, b2) => (.error e, b2)
        else
          (.ok (some a, []), b1)
      else
        match b.cancelOrder id with
        | (.ok _, b1) => b1.placeLimitOrder id r.side newPrice newQty
        | (.error e, b1) => (.error e, b1)

/-- Size in bytes of one arena slot (storage/layout.rs: the record packs to
48 bytes). -/
def recordSize : Nat := 48

/-- Arena bytes consumed (bump pointer of the external arena). -/
def Book.usedBytes (b : Book) : Nat := b.usedSlots * recordSize

/-- Arena capacity in bytes, fixed at construction. -/
def Book.capacityBytes (b : Book) : Nat := b.capSlots * recordSize

/-- Size of order_index. -/
def Book.activeOrders (b : Book) : Nat := b.index.length

/-- Size of the free list. -/
def Book.freeSlots (b : Book) : Nat := b.freeList.length

/-- Price at the head of the bid chain. -/
def Book.bestBidPrice (b : Book) : Option Nat := b.bids.head?.map (fun r => r.price)

/-- Price at the head of the ask chain. -/
def Book.bestAskPrice (b : Book) : Option Nat := b.asks.head?.map (fun r => r.price)

/-- A fresh book with a given capacity in orders (book.rs new). -/
def Book.new (cap : Nat) : Book :=
  { bids := [], asks := [], ghosts := [], index := [], freeList := [],
    usedSlots := 0, capSlots := cap, stamp := 0 }

/-- One facade call, for reachability of book states. -/
inductive Op where
  | place (id : Nat) (side : Side) (price qty : Nat)
  | cancel (id : Nat)
  | modify (id newPrice newQty : Nat)
  deriving DecidableEq, Repr

/-- The book state after one facade call (results discarded). -/
def Book.applyOp (b : Book) : Op → Book
  | Op.place id s p q => (b.placeLimitOrder id s p q).2
  | Op.cancel id => (b.cancelOrder id).2
  | Op.modify id p q => (b.modifyOrder id p q).2

/-- The book state after a sequence of facade calls. -/
def Book.applyOps (b : Book) (ops : List Op) : Book := ops.foldl Book.applyOp b

/-- A book state produced from a fresh book by some sequence of facade
calls. -/
def Reachable (b : Book) : Prop :=
  ∃ cap ops, b = (Book.new cap).applyOps ops

instance {ε α : Type} [DecidableEq ε] [DecidableEq α] : DecidableEq (Except ε α)
  | .error e1, .error e2 =>
    if h : e1 = e2 then .isTrue (by rw [h]) else .isFalse (by intro hc; cases hc; exact h rfl)
  | .error _, .ok _ => .isFalse (by intro hc; cases hc)
  | .ok _, .error _ => .isFalse (by intro hc; cases hc)
  | .ok a1, .ok a2 =>
    if h : a1 = a2 then .isTrue (by rw [h]) else .isFalse (by intro hc; cases hc; exact h rfl)

/-- Price order along a chain, head to tail: bids are non-increasing, asks
non-decreasing. -/
def priceOrdered : Side → Nat → Nat → Prop
  | Side.Buy, p1, p2 => p2 ≤ p1
  | Side.Sell, p1, p2 => p1 ≤ p2

instance : ∀ s p1 p2, Decidable (priceOrdered s p1 p2)
  | Side.Buy, _, _ => Nat.decLe _ _
  | Side.Sell, _, _ => Nat.decLe _ _

/-- The price-time priority relation between an earlier and a later record
of the same chain: the earlier record has the better-or-equal price for its
side, and at an equal price it arrived earlier (smaller ghost stamp). -/
def chainRel (s : Side) (x y : Order) : Prop :=
  priceOrdered s x.price y.price ∧ (x.price = y.price → x.arrival < y.arrival)

instance (s : Side) (x y : Order) : Decidable (chainRel s x y) := by
  unfold chainRel; infer_instance

/- ------------------------------------------------------------------ -/
/- List-level lemmas about the chain and slot primitives.              -/
/- ------------------------------------------------------------------ -/

theorem mem_insertSorted {s : Side} {r x : Order} {l : List Order} :
    x ∈ insertSorted s r l ↔ x = r ∨ x ∈ l := by
  induction l with
  | nil => simp [insertSorted]
  | cons c rest ih =>
    by_cases h : insertBeforeAt s r.price c.price
    · simp only [insertSorted, if_pos h, List.mem_cons]
    · simp only [insertSorted, if_neg h, List.mem_cons, ih]
      tauto

theorem insertSorted_perm (s : Side) (r : Order) (l : List Order) :
    (insertSorted s r l).Perm (r :: l) := by
  induction l with
  | nil => simp [insertSorted]
  | cons c rest ih =>
    by_cases h : insertBeforeAt s r.price c.price
    · simp [insertSorted, if_pos h]
    · simp only [insertSorted, if_neg h]
      exact (ih.cons c).trans (List.Perm.swap r c rest)

theorem insertBeforeAt_rel {s : Side} {rp cp : Nat} (h : insertBeforeAt s rp cp) :
    priceOrdered s rp cp ∧ rp ≠ cp := by
  cases s <;> simp only [insertBeforeAt, priceOrdered] at h ⊢ <;> omega

theorem not_insertBeforeAt_rel {s : Side} {rp cp : Nat} (h : ¬ insertBeforeAt s rp cp) :
    priceOrdered s cp rp := by
  cases s <;> simp only [insertBeforeAt, priceOrdered] at h ⊢ <;> omega

theorem insertBeforeAt_rel_trans {s : Side} {rp cp xp : Nat}
    (h : insertBeforeAt s rp cp) (h2 : priceOrdered s cp xp) :
    priceOrdered s rp xp ∧ rp ≠ xp := by
  cases s <;> simp only [insertBeforeAt, priceOrdered] at h h2 ⊢ <;> omega

theorem pairwise_insertSorted {s : Side} {r : Order} {l : List Order}
    (hl : l.Pairwise (chainRel s)) (ha : ∀ x ∈ l, x.arrival < r.arrival) :
    (insertSorted s r l).Pairwise (chainRel s) := by
  induction l with
  | nil => simp [insertSorted]
  | cons c rest ih =>
    rcases List.pairwise_cons.mp hl with ⟨hcrest, hrest⟩
    by_cases h : insertBeforeAt s r.price c.price
    · simp only [insertSorted, if_pos h]
      refine List.pairwise_cons.mpr ⟨?_, hl⟩
      intro x hx
      rcases List.mem_cons.mp hx with rfl | hx
      · exact ⟨(insertBeforeAt_rel h).1, fun he => absurd he (insertBeforeAt_rel h).2⟩
      · rcases insertBeforeAt_rel_trans h (hcrest x hx).1 with ⟨h1, h2⟩
        exact ⟨h1, fun he => absurd he h2⟩
    · simp only [insertSorted, if_neg h]
      refine List.pairwise_cons.mpr
        ⟨?_, ih hrest (fun x hx => ha x (List.mem_cons_of_mem c hx))⟩
      intro x hx
      rcases mem_insertSorted.mp hx with rfl | hx
      · exact ⟨not_insertBeforeAt_rel h, fun _ => ha c (List.mem_cons_self c rest)⟩
      · exact hcrest x hx

theorem eraseAddr_sublist (a : Nat) (l : List Order) : (eraseAddr a l).Sublist l := by
  induction l with
  | nil => simp [eraseAddr]
  | cons r rest ih =>
    by_cases h : r.addr = a
    · simp only [eraseAddr, if_pos h]
      exact List.sublist_cons_self r rest
    · simp only [eraseAddr, if_neg h]
      exact ih.cons₂ r

theorem eraseAddr_of_not_mem {a : Nat} {l : List Order}
    (h : a ∉ l.map (fun r => r.addr)) : eraseAddr a l = l := by
  induction l with
  | nil => rfl
  | cons r rest ih =>
    simp only [List.map_cons, List.mem_cons] at h
    push_neg at h
    simp only [eraseAddr, if_neg (Ne.symm h.1), ih h.2]

theorem map_addr_eraseAddr_perm {a : Nat} {l : List Order}
    (h : a ∈ l.map (fun r => r.addr)) :
    (l.map (fun r => r.addr)).Perm (a :: (eraseAddr a l).map (fun r => r.addr)) := by
  induction l with
  | nil => simp at h
  | cons r rest ih =>
    by_cases he : r.addr = a
    · simp [eraseAddr, if_pos he, he]
    · simp only [List.map_cons, List.mem_cons] at h
      rcases h with h | h
      · exact absurd h.symm he
      · simp only [eraseAddr, if_neg he, List.map_cons]
        exact ((ih h).cons r.addr).trans (List.Perm.swap a r.addr _)

theorem updQty_eq_map (a q : Nat) (l : List Order) :
    updQty a q l = l.map (fun r => if r.addr = a then { r with qty := q } else r) := by
  induction l with
  | nil => rfl
  | cons r rest ih => simp only [updQty, List.map_cons, ih]

theorem updQty_map_addr (a q : Nat) (l : List Order) :
    (updQty a q l).map (fun r => r.addr) = l.map (fun r => r.addr) := by
  rw [updQty_eq_map, List.map_map]
  refine List.map_congr_left ?_
  intro r _
  by_cases h : r.addr = a <;> simp [h]

theorem updQty_map_frame (a q : Nat) (l : List Order) :
    (updQty a q l).map (fun r => (r.addr, r.id, r.price, r.side, r.arrival))
      = l.map (fun r => (r.addr, r.id, r.price, r.side, r.arrival)) := by
  rw [updQty_eq_map, List.map_map]
  refine List.map_congr_left ?_
  intro r _
  by_cases h : r.addr = a <;> simp [h]

theorem pairwise_updQty {s : Side} {l : List Order} (a q : Nat)
    (h : l.Pairwise (chainRel s)) : (updQty a q l).Pairwise (chainRel s) := by
  rw [updQty_eq_map]
  refine List.Pairwise.map _ ?_ h
  intro x y hxy
  by_cases hx : x.addr = a <;> by_cases hy : y.addr = a <;>
    simp only [if_pos, if_neg, hx, hy, if_true, if_false] <;> exact hxy

theorem updQty_pos {l : List Order} {a q : Nat} (hq : 0 < q)
    (h : ∀ r ∈ l, 0 < r.qty) : ∀ r ∈ updQty a q l, 0 < r.qty := by
  rw [updQty_eq_map]
  intro r hr
  rcases List.mem_map.mp hr with ⟨y, hy, rfl⟩
  by_cases hya : y.addr = a <;> simp [hya, hq, h y hy]

theorem updQty_arrival {l : List Order} {a q s : Nat}
    (h : ∀ r ∈ l, r.arrival < s) : ∀ r ∈ updQty a q l, r.arrival < s := by
  rw [updQty_eq_map]
  intro r hr
  rcases List.mem_map.mp hr with ⟨y, hy, rfl⟩
  by_cases hya : y.addr = a <;> simp [hya, h y hy]

theorem updQty_of_not_mem {a : Nat} {l : List Order} (q : Nat)
    (h : a ∉ l.map (fun r => r.addr)) : updQty a q l = l := by
  induction l with
  | nil => rfl
  | cons r rest ih =>
    simp only [List.map_cons, List.mem_cons] at h
    push_neg at h
    simp only [updQty, if_neg (Ne.symm h.1), ih h.2]

theorem eraseAddr_updQty {a : Nat} {l : List Order} (q : Nat)
    (hnd : (l.map (fun r => r.addr)).Nodup) :
    eraseAddr a (updQty a q l) = eraseAddr a l := by
  induction l with
  | nil => rfl
  | cons r rest ih =>
    simp only [List.map_cons, List.nodup_cons] at hnd
    by_cases h : r.addr = a
    · subst h
      simp [updQty, eraseAddr, updQty_of_not_mem q hnd.1]
    · simp only [updQty, if_neg h, eraseAddr, if_neg h, ih hnd.2]

/- ------------------------------------------------------------------ -/
/- Index (order_index) lemmas.                                         -/
/- ------------------------------------------------------------------ -/

theorem idxLookup_decomp {idx : List (Nat × Nat)} {k a : Nat}
    (h : idxLookup idx k = some a) :
    ∃ pre post, idx = pre ++ (k, a) :: post ∧ (∀ e ∈ pre, e.1 ≠ k) ∧
      idxRemove idx k = pre ++ post := by
  induction idx with
  | nil => simp [idxLookup] at h
  | cons e rest ih =>
    rcases e with ⟨k1, a1⟩
    by_cases he : k1 = k
    · subst he
      simp only [idxLookup, if_true, eq_self_iff_true, Option.some.injEq] at h
      subst h
      exact ⟨[], rest, rfl, by simp, by simp [idxRemove]⟩
    · simp only [idxLookup, if_neg he] at h
      rcases ih h with ⟨pre, post, hsplit, hpre, hrem⟩
      refine ⟨(k1, a1) :: pre, post, by simp [hsplit], ?_, ?_⟩
      · intro e hme
        rcases List.mem_cons.mp hme with rfl | hme
        · exact he
        · exact hpre e hme
      · simp [idxRemove, if_neg he, hrem]

theorem idxRemove_sublist (idx : List (Nat × Nat)) (k : Nat) :
    (idxRemove idx k).Sublist idx := by
  induction idx with
  | nil => simp [idxRemove]
  | cons e rest ih =>
    by_cases h : e.1 = k
    · simp only [idxRemove, if_pos h]
      exact List.sublist_cons_self e rest
    · simp only [idxRemove, if_neg h]
      exact ih.cons₂ e

theorem idxLookup_eq_none_of_not_mem {idx : List (Nat × Nat)} {k : Nat}
    (h : k ∉ idx.map (fun e => e.1)) : idxLookup idx k = none := by
  induction idx with
  | nil => rfl
  | cons e rest ih =>
    simp only [List.map_cons, List.mem_cons] at h
    push_neg at h
    simp only [idxLookup, if_neg (Ne.symm h.1), ih h.2]

theorem idxLookup_append_of_ne {pre post : List (Nat × Nat)} {k : Nat}
    (h : ∀ e ∈ pre, e.1 ≠ k) :
    idxLookup (pre ++ post) k = idxLookup post k := by
  induction pre with
  | nil => rfl
  | cons e rest ih =>
    simp only [List.cons_append, idxLookup,
      if_neg (h e (List.mem_cons_self e rest))]
    exact ih (fun x hx => h x (List.mem_cons_of_mem e hx))

theorem idxLookup_mem {idx : List (Nat × Nat)} {k a : Nat}
    (h : idxLookup idx k = some a) : (k, a) ∈ idx := by
  rcases idxLookup_decomp h with ⟨pre, post, hsplit, -, -⟩
  rw [hsplit]
  exact List.mem_append_right pre (List.mem_cons_self _ _)

theorem idxLookup_remove_self {idx : List (Nat × Nat)} {k a : Nat}
    (hnd : (idx.map (fun e => e.1)).Nodup) (h : idxLookup idx k = some a) :
    idxLookup (idxRemove idx k) k = none := by
  rcases idxLookup_decomp h with ⟨pre, post, hsplit, hpre, hrem⟩
  rw [hrem, idxLookup_append_of_ne hpre]
  subst hsplit
  simp only [List.map_append, List.map_cons, List.nodup_append,
    List.nodup_cons, List.mem_cons] at hnd
  exact idxLookup_eq_none_of_not_mem hnd.2.1.1

/- ------------------------------------------------------------------ -/
/- Matching-loop lemmas.                                               -/
/- ------------------------------------------------------------------ -/

theorem execMatch_addr (tId : Nat) (ts : Side) (tp : Nat) :
    ∀ (chain : List Order) (tq : Nat),
      ((execMatch tId ts tp tq chain).filled.map (fun r => r.addr))
          ++ ((execMatch tId ts tp tq chain).chain.map (fun r => r.addr))
        = chain.map (fun r => r.addr) := by
  intro chain
  induction chain with
  | nil => intro tq; simp [execMatch]
  | cons maker rest ih =>
    intro tq
    by_cases h0 : tq = 0
    · simp [execMatch, h0]
    · by_cases hcr : crossesAt ts tp maker.price
      · by_cases hm : maker.qty - min tq maker.qty = 0
        · simp only [execMatch, if_neg h0, if_pos hcr, if_pos hm,
            List.map_cons, List.cons_append]
          rw [ih]
        · simp [execMatch, h0, hcr, hm]
      · simp [execMatch, h0, hcr]

theorem execMatch_chain_pairwise {R : Order → Order → Prop}
    (hR : ∀ (x y : Order) (q : Nat), R x y → R { x with qty := q } y)
    (tId : Nat) (ts : Side) (tp : Nat) :
    ∀ (chain : List Order) (tq : Nat), chain.Pairwise R →
      (execMatch tId ts tp tq chain).chain.Pairwise R := by
  intro chain
  induction chain with
  | nil => intro tq h; simp [execMatch]
  | cons maker rest ih =>
    intro tq h
    rcases List.pairwise_cons.mp h with ⟨h1, h2⟩
    by_cases h0 : tq = 0
    · simpa [execMatch, h0] using h
    · by_cases hcr : crossesAt ts tp maker.price
      · by_cases hm : maker.qty - min tq maker.qty = 0
        · simp only [execMatch, if_neg h0, if_pos hcr, if_pos hm]
          exact ih _ h2
        · simp only [execMatch, if_neg h0, if_pos hcr, if_neg hm]
          exact List.pairwise_cons.mpr ⟨fun x hx => hR maker x _ (h1 x hx), h2⟩
      · simpa [execMatch, h0, hcr] using h

theorem execMatch_chain_pos (tId : Nat) (ts : Side) (tp : Nat) :
    ∀ (chain : List Order) (tq : Nat), (∀ r ∈ chain, 0 < r.qty) →
      ∀ r ∈ (execMatch tId ts tp tq chain).chain, 0 < r.qty := by
  intro chain
  induction chain with
  | nil => intro tq h; simp [execMatch]
  | cons maker rest ih =>
    intro tq h
    by_cases h0 : tq = 0
    · simpa [execMatch, h0] using h
    · by_cases hcr : crossesAt ts tp maker.price
      · by_cases hm : maker.qty - min tq maker.qty = 0
        · simp only [execMatch, if_neg h0, if_pos hcr, if_pos hm]
          exact ih _ (fun r hr => h r (List.mem_cons_of_mem maker hr))
        · simp only [execMatch, if_neg h0, if_pos hcr, if_neg hm]
          intro r hr
          rcases List.mem_cons.mp hr with rfl | hr
          · exact Nat.pos_of_ne_zero hm
          · exact h r (List.mem_cons_of_mem maker hr)
      · simpa [execMatch, h0, hcr] using h

theorem execMatch_chain_blind {P : Order → Prop}
    (hP : ∀ (x : Order) (q : Nat), P x → P { x with qty := q })
    (tId : Nat) (ts : Side) (tp : Nat) :
    ∀ (chain : List Order) (tq : Nat), (∀ r ∈ chain, P r) →
      ∀ r ∈ (execMatch tId ts tp tq chain).chain, P r := by
  intro chain
  induction chain with
  | nil => intro tq h; simp [execMatch]
  | cons maker rest ih =>
    intro tq h
    by_cases h0 : tq = 0
    · simpa [execMatch, h0] using h
    · by_cases hcr : crossesAt ts tp maker.price
      · by_cases hm : maker.qty - min tq maker.qty = 0
        · simp only [execMatch, if_neg h0, if_pos hcr, if_pos hm]
          exact ih _ (fun r hr => h r (List.mem_cons_of_mem maker hr))
        · simp only [execMatch, if_neg h0, if_pos hcr, if_neg hm]
          intro r hr
          rcases List.mem_cons.mp hr with rfl | hr
          · exact hP maker _ (h maker (List.mem_cons_self maker rest))
          · exact h r (List.mem_cons_of_mem maker hr)
      · simpa [execMatch, h0, hcr] using h

theorem execMatch_spec (tId : Nat) (ts : Side) (tp : Nat) :
    ∀ (chain : List Order) (tq : Nat),
      (execMatch tId ts tp tq chain).remaining
          + ((execMatch tId ts tp tq chain).trades.map (fun t => t.quantity)).sum = tq
      ∧ (execMatch tId ts tp tq chain).trades.length ≤ chain.length
      ∧ ∀ (i : Nat), i < (execMatch tId ts tp tq chain).trades.length →
          i < chain.length →
          ((execMatch tId ts tp tq chain).trades.getD i default).quantity
              ≤ (chain.getD i default).qty
          ∧ ((execMatch tId ts tp tq chain).trades.getD i default).quantity
              ≤ tq - (((execMatch tId ts tp tq chain).trades.take i).map
                  (fun t => t.quantity)).sum
          ∧ ((execMatch tId ts tp tq chain).trades.getD i default).price
              = (chain.getD i default).price
          ∧ ((execMatch tId ts tp tq chain).trades.getD i default).maker_id
              = (chain.getD i default).id
          ∧ ((execMatch tId ts tp tq chain).trades.getD i default).maker_side
              = (chain.getD i default).side
          ∧ ((execMatch tId ts tp tq chain).trades.getD i default).taker_id = tId := by
  intro chain
  induction chain with
  | nil =>
    intro tq
    refine ⟨by simp [execMatch], by simp [execMatch], ?_⟩
    intro i hi hc
    simp [execMatch] at hi
  | cons maker rest ih =>
    intro tq
    by_cases h0 : tq = 0
    · refine ⟨by simp [execMatch, h0], by simp [execMatch, h0], ?_⟩
      intro i hi hc
      simp [execMatch, h0] at hi
    · by_cases hcr : crossesAt ts tp maker.price
      · by_cases hm : maker.qty - min tq maker.qty = 0
        · -- full fill of the head maker, recursion on the tail
          rcases ih (tq - min tq maker.qty) with ⟨ihA, ihB, ihC⟩
          have hfle : min tq maker.qty ≤ tq := Nat.min_le_left _ _
          refine ⟨?_, ?_, ?_⟩
          · simp only [execMatch, if_neg h0, if_pos hcr, if_pos hm,
              List.map_cons, List.sum_cons]
            omega
          · simp only [execMatch, if_neg h0, if_pos hcr, if_pos hm,
              List.length_cons]
            exact Nat.succ_le_succ ihB
          · simp only [execMatch, if_neg h0, if_pos hcr, if_pos hm]
            intro i hi hc
            cases i with
            | zero =>
              simp only [List.getD_cons_zero, List.take_zero, List.map_nil,
                List.sum_nil, Nat.sub_zero]
              refine ⟨Nat.min_le_right _ _, hfle, ?_, ?_, ?_, ?_⟩ <;> trivial
            | succ j =>
              simp only [List.length_cons] at hi hc
              have hj := ihC j (Nat.lt_of_succ_lt_succ hi) (Nat.lt_of_succ_lt_succ hc)
              simp only [List.getD_cons_succ, List.take_succ_cons, List.map_cons,
                List.sum_cons]
              refine ⟨hj.1, ?_, hj.2.2.1, hj.2.2.2.1, hj.2.2.2.2.1, hj.2.2.2.2.2⟩
              have := hj.2.1
              omega
        · -- the head maker survives with reduced quantity; the trade takes
          -- the whole remaining taker quantity
          have hfle : min tq maker.qty ≤ tq := Nat.min_le_left _ _
          refine ⟨?_, ?_, ?_⟩
          · simp only [execMatch, if_neg h0, if_pos hcr, if_neg hm,
              List.map_cons, List.sum_cons, List.map_nil, List.sum_nil]
            omega
          · simp only [execMatch, if_neg h0, if_pos hcr, if_neg hm,
              List.length_cons, List.length_singleton, List.length_nil]
            omega
          · simp only [execMatch, if_neg h0, if_pos hcr, if_neg hm]
            intro i hi hc
            cases i with
            | zero =>
              simp only [List.getD_cons_zero, List.take_zero, List.map_nil,
                List.sum_nil, Nat.sub_zero]
              refine ⟨Nat.min_le_right _ _, hfle, ?_, ?_, ?_, ?_⟩ <;> trivial
            | succ j =>
              simp only [List.length_singleton] at hi
              omega
      · refine ⟨by simp [execMatch, h0, hcr], by simp [execMatch, h0, hcr], ?_⟩
        intro i hi hc
        simp [execMatch, h0, hcr] at hi

/- ------------------------------------------------------------------ -/
/- Book-level unfolding equations for the matcher.                     -/
/- ------------------------------------------------------------------ -/

theorem runMatch_buy (b : Book) (tId tp tq : Nat) :
    b.runMatch tId Side.Buy tp tq =
      { remaining := (execMatch tId Side.Buy tp tq b.asks).remaining,
        trades := (execMatch tId Side.Buy tp tq b.asks).trades,
        book := { b with
                  asks := (execMatch tId Side.Buy tp tq b.asks).chain,
                  ghosts := (execMatch tId Side.Buy tp tq b.asks).filled ++ b.ghosts } } :=
  rfl

theorem runMatch_sell (b : Book) (tId tp tq : Nat) :
    b.runMatch tId Side.Sell tp tq =
      { remaining := (execMatch tId Side.Sell tp tq b.bids).remaining,
        trades := (execMatch tId Side.Sell tp tq b.bids).trades,
        book := { b with
                  bids := (execMatch tId Side.Sell tp tq b.bids).chain,
                  ghosts := (execMatch tId Side.Sell tp tq b.bids).filled ++ b.ghosts } } :=
  rfl

/- ------------------------------------------------------------------ -/
/- The well-formedness invariant of a book state.                      -/
/- ------------------------------------------------------------------ -/

/-- All records currently stored in live arena slots: the two chains plus
the matcher's ghost records. -/
def Book.liveRecs (b : Book) : List Order := b.bids ++ b.asks ++ b.ghosts

/-- Addresses of the live records. -/
def Book.recAddrs (b : Book) : List Nat := b.liveRecs.map (fun r => r.addr)

/-- Every arena slot currently accounted for: live records plus the free
list. -/
def Book.allAddrs (b : Book) : List Nat := b.recAddrs ++ b.freeList

/-- Internal consistency of a book state, preserved by every facade call:
per-side price sorting with arrival-order tie break, strictly positive
chain quantities, arrival stamps below the stamp counter, a single owner
for every arena slot, slot addresses inside the allocated arena prefix,
and an index whose entries point at distinct live slots. -/
structure WF (b : Book) : Prop where
  bidsSorted : b.bids.Pairwise (chainRel Side.Buy)
  asksSorted : b.asks.Pairwise (chainRel Side.Sell)
  bidsPos : ∀ r ∈ b.bids, 0 < r.qty
  asksPos : ∀ r ∈ b.asks, 0 < r.qty
  bidsStamp : ∀ r ∈ b.bids, r.arrival < b.stamp
  asksStamp : ∀ r ∈ b.asks, r.arrival < b.stamp
  addrNodup : b.allAddrs.Nodup
  addrLt : ∀ a ∈ b.allAddrs, a < b.usedSlots
  idxAddrMem : ∀ e ∈ b.index, e.2 ∈ b.recAddrs
  idxAddrNodup : (b.index.map (fun e => e.2)).Nodup

/- ------------------------------------------------------------------ -/
/- Auxiliary permutation lemmas.                                       -/
/- ------------------------------------------------------------------ -/

theorem perm_append_swap (X Y Z : List Nat) :
    (X ++ (Y ++ Z)).Perm (Y ++ (X ++ Z)) := by
  have h1 : ((X ++ Y) ++ Z).Perm ((Y ++ X) ++ Z) :=
    List.perm_append_comm.append_right Z
  rw [List.append_assoc X Y Z, List.append_assoc Y X Z] at h1
  exact h1

theorem not_mem_both_of_nodup {l1 l2 : List Nat} {a : Nat}
    (h : (l1 ++ l2).Nodup) : a ∉ l1 ∨ a ∉ l2 := by
  by_cases ha : a ∈ l1
  · right
    exact fun hb => (List.disjoint_of_nodup_append h) ha hb
  · left
    exact ha

theorem eraseAddr_append_of_once {a : Nat} {l1 l2 : List Order}
    (h : a ∉ l1.map (fun r => r.addr) ∨ a ∉ l2.map (fun r => r.addr)) :
    eraseAddr a (l1 ++ l2) = eraseAddr a l1 ++ eraseAddr a l2 := by
  induction l1 with
  | nil => simp [eraseAddr]
  | cons r rest ih =>
    by_cases hr : r.addr = a
    · have h2 : a ∉ l2.map (fun x => x.addr) := by
        rcases h with h | h
        · exact absurd (by simp [← hr]) h
        · exact h
      simp only [List.cons_append, eraseAddr, if_pos hr,
        eraseAddr_of_not_mem h2]
      rfl
    · have h' : a ∉ rest.map (fun x => x.addr) ∨ a ∉ l2.map (fun x => x.addr) := by
        rcases h with h | h
        · left
          simp only [List.map_cons, List.mem_cons] at h
          push_neg at h
          exact h.2
        · right
          exact h
      simp only [List.cons_append, eraseAddr, if_neg hr]
      exact congrArg (fun l => r :: l) (ih h')

theorem mem_eraseAddr_map {a x : Nat} {l : List Order}
    (hx : x ∈ l.map (fun r => r.addr)) (hne : x ≠ a) :
    x ∈ (eraseAddr a l).map (fun r => r.addr) := by
  by_cases ha : a ∈ l.map (fun r => r.addr)
  · have hmem := (map_addr_eraseAddr_perm ha).mem_iff.mp hx
    rcases List.mem_cons.mp hmem with rfl | h
    · exact absurd rfl hne
    · exact h
  · rw [eraseAddr_of_not_mem ha]
    exact hx

/- ------------------------------------------------------------------ -/
/- Preservation of well-formedness: linking a new record.              -/
/- ------------------------------------------------------------------ -/

theorem recAddrs_linkNew_perm (b : Book) (id : Nat) (side : Side)
    (price qty addr : Nat) :
    ((b.linkNewOrder id side price qty addr).recAddrs).Perm (addr :: b.recAddrs) := by
  cases side
  · simp only [Book.linkNewOrder, Book.recAddrs, Book.liveRecs, List.map_append]
    have h := (insertSorted_perm Side.Buy
      { id := id, price := price, qty := qty, side := Side.Buy,
        addr := addr, arrival := b.stamp } b.bids).map (fun r => r.addr)
    exact (h.append_right _).append_right _
  · simp only [Book.linkNewOrder, Book.recAddrs, Book.liveRecs, List.map_append]
    have h := (insertSorted_perm Side.Sell
      { id := id, price := price, qty := qty, side := Side.Sell,
        addr := addr, arrival := b.stamp } b.asks).map (fun r => r.addr)
    exact ((List.Perm.append_left _ h).append_right _).trans
      (List.perm_middle.append_right _)

theorem linkNew_freeList (b : Book) (id : Nat) (side : Side) (price qty addr : Nat) :
    (b.linkNewOrder id side price qty addr).freeList = b.freeList := by
  cases side <;> rfl

theorem linkNew_usedSlots (b : Book) (id : Nat) (side : Side) (price qty addr : Nat) :
    (b.linkNewOrder id side price qty addr).usedSlots = b.usedSlots := by
  cases side <;> rfl

theorem linkNew_index (b : Book) (id : Nat) (side : Side) (price qty addr : Nat) :
    (b.linkNewOrder id side price qty addr).index = (id, addr) :: b.index := by
  cases side <;> rfl

theorem linkNew_stamp (b : Book) (id : Nat) (side : Side) (price qty addr : Nat) :
    (b.linkNewOrder id side price qty addr).stamp = b.stamp + 1 := by
  cases side <;> rfl

theorem allAddrs_linkNew_perm (b : Book) (id : Nat) (side : Side)
    (price qty addr : Nat) :
    ((b.linkNewOrder id side price qty addr).allAddrs).Perm (addr :: b.allAddrs) := by
  simp only [Book.allAddrs, linkNew_freeList]
  exact (recAddrs_linkNew_perm b id side price qty addr).append_right b.freeList

theorem wf_linkNewOrder {b : Book} {id price qty addr : Nat} {side : Side}
    (hwf : WF b) (hq : 0 < qty) (h1 : addr ∉ b.allAddrs) (h2 : addr < b.usedSlots) :
    WF (b.linkNewOrder id side price qty addr) := by
  have haddr_not_rec : addr ∉ b.recAddrs := fun h => h1 (List.mem_append_left _ h)
  have hperm := allAddrs_linkNew_perm b id side price qty addr
  have hperm2 := recAddrs_linkNew_perm b id side price qty addr
  have hnodup : (b.linkNewOrder id side price qty addr).allAddrs.Nodup :=
    hperm.symm.nodup (List.nodup_cons.mpr ⟨h1, hwf.addrNodup⟩)
  have hlt : ∀ x ∈ (b.linkNewOrder id side price qty addr).allAddrs,
      x < (b.linkNewOrder id side price qty addr).usedSlots := by
    intro x hx
    rw [linkNew_usedSlots]
    rcases List.mem_cons.mp (hperm.mem_iff.mp hx) with rfl | hx'
    · exact h2
    · exact hwf.addrLt x hx'
  have hidxmem : ∀ e ∈ (b.linkNewOrder id side price qty addr).index,
      e.2 ∈ (b.linkNewOrder id side price qty addr).recAddrs := by
    intro e he
    rw [linkNew_index] at he
    rcases List.mem_cons.mp he with rfl | he
    · exact hperm2.mem_iff.mpr (List.mem_cons_self _ _)
    · exact hperm2.mem_iff.mpr (List.mem_cons_of_mem _ (hwf.idxAddrMem e he))
  have hidxnd : ((b.linkNewOrder id side price qty addr).index.map
      (fun e => e.2)).Nodup := by
    rw [linkNew_index]
    simp only [List.map_cons]
    refine List.nodup_cons.mpr ⟨?_, hwf.idxAddrNodup⟩
    intro hmem
    rcases List.mem_map.mp hmem with ⟨e, he, heq⟩
    exact haddr_not_rec (heq ▸ hwf.idxAddrMem e he)
  cases side
  case Buy =>
    refine ⟨?_, ?_, ?_, ?_, ?_, ?_, hnodup, hlt, hidxmem, hidxnd⟩
    · exact pairwise_insertSorted hwf.bidsSorted (fun x hx => hwf.bidsStamp x hx)
    · exact hwf.asksSorted
    · intro x hx
      rcases mem_insertSorted.mp hx with rfl | hx
      · exact hq
      · exact hwf.bidsPos x hx
    · exact hwf.asksPos
    · intro x hx
      rcases mem_insertSorted.mp hx with rfl | hx
      · exact Nat.lt_succ_self b.stamp
      · exact Nat.lt_succ_of_lt (hwf.bidsStamp x hx)
    · intro x hx
      exact Nat.lt_succ_of_lt (hwf.asksStamp x hx)
  case Sell =>
    refine ⟨?_, ?_, ?_, ?_, ?_, ?_, hnodup, hlt, hidxmem, hidxnd⟩
    · exact hwf.bidsSorted
    · exact pairwise_insertSorted hwf.asksSorted (fun x hx => hwf.asksStamp x hx)
    · exact hwf.bidsPos
    · intro x hx
      rcases mem_insertSorted.mp hx with rfl | hx
      · exact hq
      · exact hwf.asksPos x hx
    · intro x hx
      exact Nat.lt_succ_of_lt (hwf.bidsStamp x hx)
    · intro x hx
      rcases mem_insertSorted.mp hx with rfl | hx
      · exact Nat.lt_succ_self b.stamp
      · exact Nat.lt_succ_of_lt (hwf.asksStamp x hx)

/- ------------------------------------------------------------------ -/
/- Preservation of well-formedness: the matching loop.                 -/
/- ------------------------------------------------------------------ -/

theorem chainRel_qty_blind (s : Side) :
    ∀ (x y : Order) (q : Nat), chainRel s x y → chainRel s { x with qty := q } y :=
  fun _ _ _ h => h

theorem recAddrs_runMatch_perm (b : Book) (tId : Nat) (ts : Side) (tp tq : Nat) :
    ((b.runMatch tId ts tp tq).book.recAddrs).Perm b.recAddrs := by
  cases ts
  case Buy =>
    rw [runMatch_buy]
    have haddr := execMatch_addr tId Side.Buy tp b.asks tq
    simp only [Book.recAddrs, Book.liveRecs, List.map_append, List.append_assoc]
    refine List.Perm.append_left _ ?_
    have h := perm_append_swap
      ((execMatch tId Side.Buy tp tq b.asks).chain.map (fun r => r.addr))
      ((execMatch tId Side.Buy tp tq b.asks).filled.map (fun r => r.addr))
      (b.ghosts.map (fun r => r.addr))
    rw [show (execMatch tId Side.Buy tp tq b.asks).filled.map (fun r => r.addr) ++
          ((execMatch tId Side.Buy tp tq b.asks).chain.map (fun r => r.addr) ++
            b.ghosts.map (fun r => r.addr))
          = b.asks.map (fun r => r.addr) ++ b.ghosts.map (fun r => r.addr) from by
        rw [← List.append_assoc, haddr]] at h
    exact h
  case Sell =>
    rw [runMatch_sell]
    have haddr := execMatch_addr tId Side.Sell tp b.bids tq
    simp only [Book.recAddrs, Book.liveRecs, List.map_append, List.append_assoc]
    have h1 := perm_append_swap (b.asks.map (fun r => r.addr))
      ((execMatch tId Side.Sell tp tq b.bids).filled.map (fun r => r.addr))
      (b.ghosts.map (fun r => r.addr))
    have h3 := (List.Perm.append_left
      ((execMatch tId Side.Sell tp tq b.bids).chain.map (fun r => r.addr)) h1).trans
      (perm_append_swap
        ((execMatch tId Side.Sell tp tq b.bids).chain.map (fun r => r.addr))
        ((execMatch tId Side.Sell tp tq b.bids).filled.map (fun r => r.addr))
        (b.asks.map (fun r => r.addr) ++ b.ghosts.map (fun r => r.addr)))
    rw [show (execMatch tId Side.Sell tp tq b.bids).filled.map (fun r => r.addr) ++
          ((execMatch tId Side.Sell tp tq b.bids).chain.map (fun r => r.addr) ++
            (b.asks.map (fun r => r.addr) ++ b.ghosts.map (fun r => r.addr)))
          = b.bids.map (fun r => r.addr) ++
            (b.asks.map (fun r => r.addr) ++ b.ghosts.map (fun r => r.addr)) from by
        rw [← List.append_assoc, haddr]] at h3
    exact h3

theorem runMatch_freeList (b : Book) (tId : Nat) (ts : Side) (tp tq : Nat) :
    (b.runMatch tId ts tp tq).book.freeList = b.freeList := by
  cases ts <;> rfl

theorem runMatch_usedSlots (b : Book) (tId : Nat) (ts : Side) (tp tq : Nat) :
    (b.runMatch tId ts tp tq).book.usedSlots = b.usedSlots := by
  cases ts <;> rfl

theorem runMatch_capSlots (b : Book) (tId : Nat) (ts : Side) (tp tq : Nat) :
    (b.runMatch tId ts tp tq).book.capSlots = b.capSlots := by
  cases ts <;> rfl

theorem runMatch_index (b : Book) (tId : Nat) (ts : Side) (tp tq : Nat) :
    (b.runMatch tId ts tp tq).book.index = b.index := by
  cases ts <;> rfl

theorem runMatch_stamp (b : Book) (tId : Nat) (ts : Side) (tp tq : Nat) :
    (b.runMatch tId ts tp tq).book.stamp = b.stamp := by
  cases ts <;> rfl

theorem allAddrs_runMatch_perm (b : Book) (tId : Nat) (ts : Side) (tp tq : Nat) :
    ((b.runMatch tId ts tp tq).book.allAddrs).Perm b.allAddrs := by
  simp only [Book.allAddrs, runMatch_freeList]
  exact (recAddrs_runMatch_perm b tId ts tp tq).append_right b.freeList

theorem wf_runMatch {b : Book} (tId : Nat) (ts : Side) (tp tq : Nat) (hwf : WF b) :
    WF (b.runMatch tId ts tp tq).book := by
  have hperm := allAddrs_runMatch_perm b tId ts tp tq
  have hperm2 := recAddrs_runMatch_perm b tId ts tp tq
  have hnodup := hperm.symm.nodup hwf.addrNodup
  have hlt : ∀ x ∈ (b.runMatch tId ts tp tq).book.allAddrs,
      x < (b.runMatch tId ts tp tq).book.usedSlots := by
    intro x hx
    rw [runMatch_usedSlots]
    exact hwf.addrLt x (hperm.mem_iff.mp hx)
  have hidxmem : ∀ e ∈ (b.runMatch tId ts tp tq).book.index,
      e.2 ∈ (b.runMatch tId ts tp tq).book.recAddrs := by
    intro e he
    rw [runMatch_index] at he
    exact hperm2.mem_iff.mpr (hwf.idxAddrMem e he)
  have hidxnd : ((b.runMatch tId ts tp tq).book.index.map (fun e => e.2)).Nodup := by
    rw [runMatch_index]
    exact hwf.idxAddrNodup
  cases ts
  case Buy =>
    rw [runMatch_buy] at hnodup hlt hidxmem hidxnd ⊢
    refine ⟨hwf.bidsSorted, ?_, hwf.bidsPos, ?_, hwf.bidsStamp, ?_,
      hnodup, hlt, hidxmem, hidxnd⟩
    · exact execMatch_chain_pairwise (chainRel_qty_blind Side.Sell) tId Side.Buy tp
        b.asks tq hwf.asksSorted
    · exact execMatch_chain_pos tId Side.Buy tp b.asks tq hwf.asksPos
    · exact execMatch_chain_blind (fun x q h => h) tId Side.Buy tp b.asks tq
        hwf.asksStamp
  case Sell =>
    rw [runMatch_sell] at hnodup hlt hidxmem hidxnd ⊢
    refine ⟨?_, hwf.asksSorted, ?_, hwf.asksPos, ?_, hwf.asksStamp,
      hnodup, hlt, hidxmem, hidxnd⟩
    · exact execMatch_chain_pairwise (chainRel_qty_blind Side.Buy) tId Side.Sell tp
        b.bids tq hwf.bidsSorted
    · exact execMatch_chain_pos tId Side.Sell tp b.bids tq hwf.bidsPos
    · exact execMatch_chain_blind (fun x q h => h) tId Side.Sell tp b.bids tq
        hwf.bidsStamp

/- ------------------------------------------------------------------ -/
/- Preservation of well-formedness: cancel.                            -/
/- ------------------------------------------------------------------ -/

theorem liveRecs_cancel_eq (b : Book) (a : Nat) (hnd : b.recAddrs.Nodup) :
    eraseAddr a b.bids ++ eraseAddr a b.asks ++ eraseAddr a b.ghosts
      = eraseAddr a (b.bids ++ b.asks ++ b.ghosts) := by
  have hnd' : (((b.bids ++ b.asks).map (fun r => r.addr))
      ++ (b.ghosts.map (fun r => r.addr))).Nodup := by
    rw [← List.map_append]
    exact hnd
  have h1 : a ∉ (b.bids ++ b.asks).map (fun r => r.addr)
      ∨ a ∉ b.ghosts.map (fun r => r.addr) := not_mem_both_of_nodup hnd'
  have hnd2 : ((b.bids.map (fun r => r.addr))
      ++ (b.asks.map (fun r => r.addr))).Nodup := by
    rw [← List.map_append]
    exact (List.nodup_append.mp hnd').1
  have h2 : a ∉ b.bids.map (fun r => r.addr) ∨ a ∉ b.asks.map (fun r => r.addr) :=
    not_mem_both_of_nodup hnd2
  rw [eraseAddr_append_of_once h1, eraseAddr_append_of_once h2]

theorem wf_cancel {b : Book} (id : Nat) (hwf : WF b) : WF (b.cancelOrder id).2 := by
  cases hl : idxLookup b.index id with
  | none => simp only [Book.cancelOrder, hl]; exact hwf
  | some a =>
    simp only [Book.cancelOrder, hl]
    have hmem : a ∈ b.recAddrs := hwf.idxAddrMem (id, a) (idxLookup_mem hl)
    have hndrec : b.recAddrs.Nodup := (List.nodup_append.mp hwf.addrNodup).1
    have hsplit := liveRecs_cancel_eq b a hndrec
    have hE := map_addr_eraseAddr_perm (l := b.bids ++ b.asks ++ b.ghosts) hmem
    refine ⟨?_, ?_, ?_, ?_, ?_, ?_, ?_, ?_, ?_, ?_⟩
    · exact List.Pairwise.sublist (eraseAddr_sublist a b.bids) hwf.bidsSorted
    · exact List.Pairwise.sublist (eraseAddr_sublist a b.asks) hwf.asksSorted
    · exact fun r hr => hwf.bidsPos r ((eraseAddr_sublist a b.bids).subset hr)
    · exact fun r hr => hwf.asksPos r ((eraseAddr_sublist a b.asks).subset hr)
    · exact fun r hr => hwf.bidsStamp r ((eraseAddr_sublist a b.bids).subset hr)
    · exact fun r hr => hwf.asksStamp r ((eraseAddr_sublist a b.asks).subset hr)
    · show ((eraseAddr a b.bids ++ eraseAddr a b.asks ++ eraseAddr a b.ghosts).map
        (fun r => r.addr) ++ (a :: b.freeList)).Nodup
      rw [hsplit]
      have hcons : (a :: ((eraseAddr a (b.bids ++ b.asks ++ b.ghosts)).map
          (fun r => r.addr) ++ b.freeList)).Nodup :=
        (hE.append_right b.freeList).nodup hwf.addrNodup
      exact List.perm_middle.symm.nodup hcons
    · intro x hx
      show x < b.usedSlots
      simp only [Book.allAddrs, Book.recAddrs, Book.liveRecs] at hx
      rw [hsplit] at hx
      have hx' := List.perm_middle.mem_iff.mp hx
      rcases List.mem_cons.mp hx' with rfl | hx'
      · exact hwf.addrLt x (List.mem_append_left _ hmem)
      · rcases List.mem_append.mp hx' with hx' | hx'
        · refine hwf.addrLt x (List.mem_append_left _ ?_)
          exact hE.symm.subset (List.mem_cons_of_mem a hx')
        · exact hwf.addrLt x (List.mem_append_right _ hx')
    · intro e he
      rcases idxLookup_decomp hl with ⟨pre, post, hidx, hpre, hremeq⟩
      have hnd2 := hwf.idxAddrNodup
      rw [hidx] at hnd2
      simp only [List.map_append, List.map_cons] at hnd2
      rcases List.nodup_append.mp hnd2 with ⟨hnpre, hnpost, hdisj⟩
      have hapre : a ∉ pre.map (fun e => e.2) := fun hin =>
        hdisj hin (List.mem_cons_self _ _)
      have hapost : a ∉ post.map (fun e => e.2) := (List.nodup_cons.mp hnpost).1
      have he' : e ∈ pre ++ post := by
        rw [← hremeq]
        exact he
      have hemem : e ∈ b.index := by
        rw [hidx]
        rcases List.mem_append.mp he' with h | h
        · exact List.mem_append_left _ h
        · exact List.mem_append_right _ (List.mem_cons_of_mem _ h)
      have hne : e.2 ≠ a := by
        intro heq
        rcases List.mem_append.mp he' with h | h
        · exact hapre (heq ▸ List.mem_map_of_mem (fun e => e.2) h)
        · exact hapost (heq ▸ List.mem_map_of_mem (fun e => e.2) h)
      show e.2 ∈ (eraseAddr a b.bids ++ eraseAddr a b.asks
        ++ eraseAddr a b.ghosts).map (fun r => r.addr)
      rw [hsplit]
      exact mem_eraseAddr_map (hwf.idxAddrMem e hemem) hne
    · show ((idxRemove b.index id).map (fun e => e.2)).Nodup
      exact List.Sublist.nodup
        ((idxRemove_sublist b.index id).map (fun e => e.2)) hwf.idxAddrNodup

/- ------------------------------------------------------------------ -/
/- Preservation of well-formedness: modify and place.                  -/
/- ------------------------------------------------------------------ -/

theorem recAddrs_setQty (b : Book) (a q : Nat) :
    (b.setQty a q).recAddrs = b.recAddrs := by
  simp only [Book.setQty, Book.recAddrs, Book.liveRecs, List.map_append,
    updQty_map_addr]

theorem allAddrs_setQty (b : Book) (a q : Nat) :
    (b.setQty a q).allAddrs = b.allAddrs := by
  simp only [Book.allAddrs, recAddrs_setQty]
  rfl

theorem wf_setQty {b : Book} {a q : Nat} (hwf : WF b) (hq : 0 < q) :
    WF (b.setQty a q) := by
  refine ⟨?_, ?_, ?_, ?_, ?_, ?_, ?_, ?_, ?_, ?_⟩
  · exact pairwise_updQty a q hwf.bidsSorted
  · exact pairwise_updQty a q hwf.asksSorted
  · exact updQty_pos hq hwf.bidsPos
  · exact updQty_pos hq hwf.asksPos
  · exact updQty_arrival hwf.bidsStamp
  · exact updQty_arrival hwf.asksStamp
  · rw [allAddrs_setQty]
    exact hwf.addrNodup
  · intro x hx
    rw [allAddrs_setQty] at hx
    exact hwf.addrLt x hx
  · intro e he
    rw [recAddrs_setQty]
    exact hwf.idxAddrMem e he
  · exact hwf.idxAddrNodup

theorem recAddrs_components_nodup {b : Book} (hnd : b.recAddrs.Nodup) :
    (b.bids.map (fun r => r.addr)).Nodup ∧ (b.asks.map (fun r => r.addr)).Nodup
      ∧ (b.ghosts.map (fun r => r.addr)).Nodup := by
  have h : ((b.bids.map (fun r => r.addr) ++ b.asks.map (fun r => r.addr))
      ++ b.ghosts.map (fun r => r.addr)).Nodup := by
    simpa [Book.recAddrs, Book.liveRecs, List.map_append] using hnd
  rcases List.nodup_append.mp h with ⟨h12, h3, -⟩
  rcases List.nodup_append.mp h12 with ⟨h1, h2, -⟩
  exact ⟨h1, h2, h3⟩

/-- In the fast-path cancel of modify_order, the quantity write that
precedes the cancel is invisible in the final state: the written record is
removed anyway. -/
theorem cancel_of_setQty_eq {b : Book} {id a : Nat} (q : Nat)
    (hnd : b.recAddrs.Nodup) (hl : idxLookup b.index id = some a) :
    (b.setQty a q).cancelOrder id = (.ok id, (b.cancelOrder id).2) := by
  rcases recAddrs_components_nodup hnd with ⟨h1, h2, h3⟩
  simp only [Book.cancelOrder, Book.setQty, hl]
  rw [eraseAddr_updQty q h1, eraseAddr_updQty q h2, eraseAddr_updQty q h3]

theorem wf_place {b : Book} (id : Nat) (side : Side) (price qty : Nat)
    (hwf : WF b) : WF (b.placeLimitOrder id side price qty).2 := by
  have hm := wf_runMatch id side price qty hwf
  unfold Book.placeLimitOrder
  by_cases hI : (idxLookup b.index id).isSome
  · rw [if_pos hI]
    exact hwf
  · rw [if_neg hI]
    by_cases h0 : (b.runMatch id side price qty).remaining = 0
    · rw [if_pos h0]
      exact hm
    · rw [if_neg h0]
      rcases hfl : (b.runMatch id side price qty).book.freeList with _ | ⟨recycled, fl⟩
      · simp only [hfl]
        by_cases hcap : (b.runMatch id side price qty).book.usedSlots
            < (b.runMatch id side price qty).book.capSlots
        · rw [if_pos hcap]
          refine wf_linkNewOrder ?_ (Nat.pos_of_ne_zero h0) ?_ ?_
          · refine ⟨hm.bidsSorted, hm.asksSorted, hm.bidsPos, hm.asksPos,
              hm.bidsStamp, hm.asksStamp, ?_, ?_, hm.idxAddrMem, hm.idxAddrNodup⟩
            · simp only [Book.allAddrs, List.append_nil]
              exact (List.nodup_append.mp hm.addrNodup).1
            · intro x hx
              simp only [Book.allAddrs, List.append_nil] at hx
              exact Nat.lt_succ_of_lt (hm.addrLt x (List.mem_append_left _ hx))
          · intro hmem
            simp only [Book.allAddrs, List.append_nil] at hmem
            exact absurd (hm.addrLt _ (List.mem_append_left _ hmem))
              (Nat.lt_irrefl _)
          · exact Nat.lt_succ_self _
        · rw [if_neg hcap]
          exact hm
      · simp only [hfl]
        have hnd : ((b.runMatch id side price qty).book.recAddrs
            ++ (recycled :: fl)).Nodup := by
          have h := hm.addrNodup
          rw [Book.allAddrs, hfl] at h
          exact h
        rcases List.nodup_append.mp hnd with ⟨hndrec, hndfl, hdisj⟩
        have hnotin : recycled ∉ (b.runMatch id side price qty).book.recAddrs :=
          fun hin => hdisj hin (List.mem_cons_self _ _)
        refine wf_linkNewOrder ?_ (Nat.pos_of_ne_zero h0) ?_ ?_
        · refine ⟨hm.bidsSorted, hm.asksSorted, hm.bidsPos, hm.asksPos,
            hm.bidsStamp, hm.asksStamp, ?_, ?_, hm.idxAddrMem, hm.idxAddrNodup⟩
          · show ((b.runMatch id side price qty).book.recAddrs ++ fl).Nodup
            exact List.Sublist.nodup
              (List.Sublist.append_left (List.sublist_cons_self recycled fl) _) hnd
          · intro x hx
            refine hm.addrLt x ?_
            rw [Book.allAddrs, hfl]
            exact (List.Sublist.append_left
              (List.sublist_cons_self recycled fl) _).subset hx
        · intro hmem
          rcases List.mem_append.mp hmem with hmem | hmem
          · exact hnotin hmem
          · exact (List.nodup_cons.mp hndfl).1 hmem
        · refine hm.addrLt recycled ?_
          rw [Book.allAddrs, hfl]
          exact List.mem_append_right _ (List.mem_cons_self _ _)

theorem wf_modify {b : Book} (id newPrice newQty : Nat) (hwf : WF b) :
    WF (b.modifyOrder id newPrice newQty).2 := by
  cases hl : idxLookup b.index id with
  | none =>
    simp only [Book.modifyOrder, hl]
    exact hwf
  | some a =>
    cases hr : b.findRec a with
    | none =>
      simp only [Book.modifyOrder, hl, hr]
      exact hwf
    | some r =>
      by_cases hfast : r.price = newPrice ∧ newQty ≤ r.qty
      · by_cases h0 : newQty = 0
        · subst h0
          simp only [Book.modifyOrder, hl, hr, if_pos hfast, if_pos rfl]
          have hndrec : b.recAddrs.Nodup := (List.nodup_append.mp hwf.addrNodup).1
          have hw2 : WF ((b.setQty a 0).cancelOrder id).2 := by
            rw [cancel_of_setQty_eq 0 hndrec hl]
            exact wf_cancel id hwf
          rcases hc : (b.setQty a 0).cancelOrder id with ⟨ret, b2⟩
          rw [hc] at hw2
          cases ret <;> simp only [hc] <;> exact hw2
        · simp only [Book.modifyOrder, hl, hr, if_pos hfast, if_neg h0]
          exact wf_setQty hwf (Nat.pos_of_ne_zero h0)
      · simp only [Book.modifyOrder, hl, hr, if_neg hfast]
        have hwc : WF (b.cancelOrder id).2 := wf_cancel id hwf
        rcases hc : b.cancelOrder id with ⟨ret, b1⟩
        rw [hc] at hwc
        cases ret with
        | ok v =>
          simp only [hc]
          exact wf_place id r.side newPrice newQty hwc
        | error e =>
          simp only [hc]
          exact hwc

theorem wf_applyOp {b : Book} (op : Op) (hwf : WF b) : WF (b.applyOp op) := by
  cases op with
  | place id s p q => exact wf_place id s p q hwf
  | cancel id => exact wf_cancel id hwf
  | modify id p q => exact wf_modify id p q hwf

theorem wf_applyOps {b : Book} (ops : List Op) (hwf : WF b) :
    WF (b.applyOps ops) := by
  induction ops generalizing b with
  | nil => exact hwf
  | cons op rest ih => exact ih (wf_applyOp op hwf)

theorem wf_new (cap : Nat) : WF (Book.new cap) := by
  refine ⟨?_, ?_, ?_, ?_, ?_, ?_, ?_, ?_, ?_, ?_⟩ <;>
    simp [Book.new, Book.allAddrs, Book.recAddrs, Book.liveRecs]

theorem reachable_wf {b : Book} (h : Reachable b) : WF b := by
  rcases h with ⟨cap, ops, rfl⟩
  exact wf_applyOps ops (wf_new cap)

/- ------------------------------------------------------------------ -/
/- Claim theorems.                                                     -/
/- ------------------------------------------------------------------ -/

/-- The chain the matcher consumes: the side opposite the taker
(matcher.rs step 2). -/
def Book.oppChain (b : Book) : Side → List Order
  | Side.Buy => b.asks
  | Side.Sell => b.bids

theorem runMatch_remaining (b : Book) (tId : Nat) (ts : Side) (tp tq : Nat) :
    (b.runMatch tId ts tp tq).remaining
      = (execMatch tId ts tp tq (b.oppChain ts)).remaining := by
  cases ts <;> rfl

theorem runMatch_trades (b : Book) (tId : Nat) (ts : Side) (tp tq : Nat) :
    (b.runMatch tId ts tp tq).trades
      = (execMatch tId ts tp tq (b.oppChain ts)).trades := by
  cases ts <;> rfl

/-- C3: for every reachable book state (any sequence of place, modify and
cancel calls, matching included), the bid chain is non-increasing in price
from head to tail, the ask chain non-decreasing, and among records of equal
price the chain order equals arrival order: the ghost arrival stamp, which
increments at every linking, is strictly increasing along records of equal
price (first-in-first-out time priority). -/
theorem c3_chains_sorted_with_time_priority {b : Book} (h : Reachable b) :
    b.bids.Pairwise (chainRel Side.Buy) ∧ b.asks.Pairwise (chainRel Side.Sell) :=
  ⟨(reachable_wf h).bidsSorted, (reachable_wf h).asksSorted⟩

theorem c3_chains_sorted_with_time_priority_witness :
    Reachable ((Book.new 4).applyOps [Op.place 1 Side.Sell 100 10,
      Op.place 2 Side.Sell 100 7, Op.place 3 Side.Buy 90 5,
      Op.place 4 Side.Buy 110 4])
    ∧ ((Book.new 4).applyOps [Op.place 1 Side.Sell 100 10,
        Op.place 2 Side.Sell 100 7, Op.place 3 Side.Buy 90 5,
        Op.place 4 Side.Buy 110 4]).bids.Pairwise (chainRel Side.Buy)
    ∧ ((Book.new 4).applyOps [Op.place 1 Side.Sell 100 10,
        Op.place 2 Side.Sell 100 7, Op.place 3 Side.Buy 90 5,
        Op.place 4 Side.Buy 110 4]).asks.Pairwise (chainRel Side.Sell) :=
  ⟨⟨4, _, rfl⟩, (c3_chains_sorted_with_time_priority ⟨4, _, rfl⟩).1,
    (c3_chains_sorted_with_time_priority ⟨4, _, rfl⟩).2⟩

/-- C10: in every reachable book state, every record linked into the bid or
ask chain has strictly positive remaining quantity: fully filled makers are
unlinked by the matcher in the same iteration, place only links a positive
remainder, and the modify fast path cancels at quantity zero. -/
theorem c10_linked_records_positive {b : Book} (h : Reachable b) :
    (∀ r ∈ b.bids, 0 < r.qty) ∧ (∀ r ∈ b.asks, 0 < r.qty) :=
  ⟨(reachable_wf h).bidsPos, (reachable_wf h).asksPos⟩

theorem c10_linked_records_positive_witness :
    Reachable ((Book.new 4).applyOps [Op.place 1 Side.Sell 100 10,
      Op.place 2 Side.Buy 105 4, Op.modify 1 100 3])
    ∧ (∀ r ∈ ((Book.new 4).applyOps [Op.place 1 Side.Sell 100 10,
        Op.place 2 Side.Buy 105 4, Op.modify 1 100 3]).bids, 0 < r.qty)
    ∧ (∀ r ∈ ((Book.new 4).applyOps [Op.place 1 Side.Sell 100 10,
        Op.place 2 Side.Buy 105 4, Op.modify 1 100 3]).asks, 0 < r.qty) :=
  ⟨⟨4, _, rfl⟩, (c10_linked_records_positive ⟨4, _, rfl⟩).1,
    (c10_linked_records_positive ⟨4, _, rfl⟩).2⟩

/-- C4: for every matching run triggered by place_limit_order with taker
quantity Q, the i-th emitted trade fills against the i-th record of the
pre-call opposite chain (the matcher consumes makers head first, one trade
per maker), its quantity is at most that maker's resting quantity
immediately before the fill and at most the taker's remaining quantity
immediately before the fill (Q minus the earlier fills), and Q minus the
sum of all emitted trade quantities equals the returned remaining
quantity. -/
theorem c4_quantity_conservation (b : Book) (id : Nat) (side : Side)
    (price Q : Nat) :
    Q - (((b.runMatch id side price Q).trades.map (fun t => t.quantity)).sum)
        = (b.runMatch id side price Q).remaining
    ∧ (b.runMatch id side price Q).trades.length ≤ (b.oppChain side).length
    ∧ ∀ i : Nat, i < (b.runMatch id side price Q).trades.length →
        i < (b.oppChain side).length →
        ((b.runMatch id side price Q).trades.getD i default).quantity
            ≤ ((b.oppChain side).getD i default).qty
        ∧ ((b.runMatch id side price Q).trades.getD i default).quantity
            ≤ Q - (((b.runMatch id side price Q).trades.take i).map
                (fun t => t.quantity)).sum := by
  have h := execMatch_spec id side price (b.oppChain side) Q
  rw [runMatch_remaining, runMatch_trades]
  refine ⟨by have := h.1; omega, h.2.1, ?_⟩
  intro i hi hc
  exact ⟨(h.2.2 i hi hc).1, (h.2.2 i hi hc).2.1⟩

theorem c4_quantity_conservation_witness :
    9 - (((((Book.new 2).applyOps [Op.place 1 Side.Sell 100 5]).runMatch 2
          Side.Buy 110 9).trades.map (fun t => t.quantity)).sum)
        = ((((Book.new 2).applyOps [Op.place 1 Side.Sell 100 5]).runMatch 2
          Side.Buy 110 9)).remaining
    ∧ (((((Book.new 2).applyOps [Op.place 1 Side.Sell 100 5]).runMatch 2
          Side.Buy 110 9)).trades.getD 0 default).quantity
        ≤ ((((Book.new 2).applyOps [Op.place 1 Side.Sell 100 5]).oppChain
          Side.Buy).getD 0 default).qty := by
  have h := c4_quantity_conservation
    ((Book.new 2).applyOps [Op.place 1 Side.Sell 100 5]) 2 Side.Buy 110 9
  exact ⟨h.1, (h.2.2 0 (by decide) (by decide)).1⟩

/-- C7: every trade emitted during matching executes at the maker's resting
price: the i-th trade of a run carries the identifier, side and price of
the i-th maker of the pre-call opposite chain, never the taker's limit
price. -/
theorem c7_trades_at_maker_price (b : Book) (id : Nat) (side : Side)
    (price Q : Nat) :
    (b.runMatch id side price Q).trades.length ≤ (b.oppChain side).length
    ∧ ∀ i : Nat, i < (b.runMatch id side price Q).trades.length →
        i < (b.oppChain side).length →
        ((b.runMatch id side price Q).trades.getD i default).price
            = ((b.oppChain side).getD i default).price
        ∧ ((b.runMatch id side price Q).trades.getD i default).maker_id
            = ((b.oppChain side).getD i default).id
        ∧ ((b.runMatch id side price Q).trades.getD i default).maker_side
            = ((b.oppChain side).getD i default).side
        ∧ ((b.runMatch id side price Q).trades.getD i default).taker_id = id := by
  have h := execMatch_spec id side price (b.oppChain side) Q
  rw [runMatch_trades]
  refine ⟨h.2.1, ?_⟩
  intro i hi hc
  rcases h.2.2 i hi hc with ⟨-, -, hp, hid, hside, htid⟩
  exact ⟨hp, hid, hside, htid⟩

theorem c7_trades_at_maker_price_witness :
    (((((Book.new 4).applyOps [Op.place 1 Side.Sell 50000 100,
        Op.place 2 Side.Sell 51000 50]).runMatch 3 Side.Buy 52000
        120)).trades.getD 1 default).price
      = (((((Book.new 4).applyOps [Op.place 1 Side.Sell 50000 100,
        Op.place 2 Side.Sell 51000 50])).oppChain Side.Buy).getD 1 default).price
    ∧ (((((Book.new 4).applyOps [Op.place 1 Side.Sell 50000 100,
        Op.place 2 Side.Sell 51000 50]).runMatch 3 Side.Buy 52000
        120)).trades.getD 1 default).maker_id
      = (((((Book.new 4).applyOps [Op.place 1 Side.Sell 50000 100,
        Op.place 2 Side.Sell 51000 50])).oppChain Side.Buy).getD 1 default).id := by
  have h := c7_trades_at_maker_price
    ((Book.new 4).applyOps [Op.place 1 Side.Sell 50000 100,
      Op.place 2 Side.Sell 51000 50]) 3 Side.Buy 52000 120
  exact ⟨(h.2 1 (by decide) (by decide)).1, (h.2 1 (by decide) (by decide)).2.1⟩

/-- C5: placing an order whose identifier is already present in the index
returns the DuplicateId error and changes no observable state: the returned
book is the input book, so active_orders, free_slots, used_bytes, both
chains and the index are unchanged, and no trades are produced. -/
theorem c5_duplicate_id_is_noop (b : Book) (id : Nat) (side : Side)
    (price qty : Nat) (h : (idxLookup b.index id).isSome) :
    b.placeLimitOrder id side price qty = (.error .duplicateId, b)
    ∧ (b.placeLimitOrder id side price qty).2.activeOrders = b.activeOrders
    ∧ (b.placeLimitOrder id side price qty).2.freeSlots = b.freeSlots
    ∧ (b.placeLimitOrder id side price qty).2.usedBytes = b.usedBytes
    ∧ (b.placeLimitOrder id side price qty).2.bids = b.bids
    ∧ (b.placeLimitOrder id side price qty).2.asks = b.asks
    ∧ (b.placeLimitOrder id side price qty).2.index = b.index := by
  have he : b.placeLimitOrder id side price qty = (.error .duplicateId, b) := by
    unfold Book.placeLimitOrder
    rw [if_pos h]
  refine ⟨he, ?_, ?_, ?_, ?_, ?_, ?_⟩ <;> rw [he]

theorem c5_duplicate_id_is_noop_witness :
    ((idxLookup ((Book.new 2).applyOps [Op.place 7 Side.Sell 50 5]).index
        7).isSome : Prop)
    ∧ ((Book.new 2).applyOps [Op.place 7 Side.Sell 50 5]).placeLimitOrder 7
        Side.Buy 60 3
      = (.error .duplicateId, (Book.new 2).applyOps [Op.place 7 Side.Sell 50 5]) :=
  ⟨by decide,
    (c5_duplicate_id_is_noop ((Book.new 2).applyOps [Op.place 7 Side.Sell 50 5])
      7 Side.Buy 60 3 (by decide)).1⟩

/-- C8: the modify fast path.  With the identifier indexed, an unchanged
price and a quantity not above the current one, the record is shrunk in
place: the result state is exactly the in-place quantity write, so the
chain positions (addresses, identifiers, prices, sides and arrival stamps
in order) are untouched, priority is preserved, used_bytes, index and free
list are unchanged and no trades are produced; at quantity zero the call
degenerates to a cancel: the record leaves both chains and the index and
its slot is pushed onto the free list, used_bytes still unchanged. -/
theorem c8_modify_fast_path (b : Book) (id a q np : Nat) (r : Order)
    (hl : idxLookup b.index id = some a) (hr : b.findRec a = some r)
    (hp : r.price = np) (hq : q ≤ r.qty)
    (hnd : ((b.bids ++ b.asks ++ b.ghosts).map (fun x => x.addr)).Nodup)
    (hk : (b.index.map (fun e => e.1)).Nodup) :
    (0 < q →
      b.modifyOrder id np q = (.ok (some a, []), b.setQty a q)
      ∧ (b.setQty a q).usedBytes = b.usedBytes
      ∧ (b.setQty a q).index = b.index
      ∧ (b.setQty a q).freeList = b.freeList
      ∧ (b.setQty a q).bids.map (fun x => (x.addr, x.id, x.price, x.side, x.arrival))
          = b.bids.map (fun x => (x.addr, x.id, x.price, x.side, x.arrival))
      ∧ (b.setQty a q).asks.map (fun x => (x.addr, x.id, x.price, x.side, x.arrival))
          = b.asks.map (fun x => (x.addr, x.id, x.price, x.side, x.arrival)))
    ∧ (q = 0 →
      (b.modifyOrder id np q).1 = .ok (none, [])
      ∧ (b.modifyOrder id np q).2.bids = eraseAddr a b.bids
      ∧ (b.modifyOrder id np q).2.asks = eraseAddr a b.asks
      ∧ idxLookup (b.modifyOrder id np q).2.index id = none
      ∧ (b.modifyOrder id np q).2.freeList = a :: b.freeList
      ∧ (b.modifyOrder id np q).2.usedBytes = b.usedBytes) := by
  constructor
  · intro hpos
    have h0 : ¬ q = 0 := Nat.pos_iff_ne_zero.mp hpos
    have hstep : b.modifyOrder id np q = (.ok (some a, []), b.setQty a q) := by
      simp only [Book.modifyOrder, hl, hr]
      rw [if_pos ⟨hp, hq⟩, if_neg h0]
    exact ⟨hstep, rfl, rfl, rfl, updQty_map_frame a q b.bids,
      updQty_map_frame a q b.asks⟩
  · intro h0
    subst h0
    have hstep : b.modifyOrder id np 0
        = (.ok (none, []), (b.cancelOrder id).2) := by
      simp only [Book.modifyOrder, hl, hr]
      rw [if_pos ⟨hp, hq⟩, if_pos True.intro, cancel_of_setQty_eq 0 hnd hl]
    rw [hstep]
    refine ⟨rfl, ?_, ?_, ?_, ?_, ?_⟩
    · simp only [Book.cancelOrder, hl]
    · simp only [Book.cancelOrder, hl]
    · simp only [Book.cancelOrder, hl]
      exact idxLookup_remove_self hk hl
    · simp only [Book.cancelOrder, hl]
    · simp only [Book.cancelOrder, hl]
      rfl

theorem c8_modify_fast_path_witness :
    idxLookup ((Book.new 2).applyOps [Op.place 1 Side.Sell 100 10]).index 1
      = some 0
    ∧ ((Book.new 2).applyOps [Op.place 1 Side.Sell 100 10]).modifyOrder 1 100 4
      = (.ok (some 0, []),
         ((Book.new 2).applyOps [Op.place 1 Side.Sell 100 10]).setQty 0 4)
    ∧ (((Book.new 2).applyOps [Op.place 1 Side.Sell 100 10]).setQty 0 4).usedBytes
      = ((Book.new 2).applyOps [Op.place 1 Side.Sell 100 10]).usedBytes := by
  have h := (c8_modify_fast_path
    ((Book.new 2).applyOps [Op.place 1 Side.Sell 100 10]) 1 0 4 100
    { id := 1, price := 100, qty := 10, side := Side.Sell, addr := 0, arrival := 0 }
    rfl rfl rfl (by decide) (by decide) (by decide)).1 (by decide)
  exact ⟨rfl, h.1, h.2.1⟩

/-- C9: the modify slow path (price change or quantity increase) is exactly
the composition of cancel_order with place_limit_order under the same
identifier, the side read from the record before the cancel; and because
the cancel removes the identifier from the index before the re-placement
runs its duplicate check, the call never returns a DuplicateId error. -/
theorem c9_modify_slow_path (b : Book) (id a newPrice newQty : Nat) (r : Order)
    (hl : idxLookup b.index id = some a) (hr : b.findRec a = some r)
    (hslow : ¬ (r.price = newPrice ∧ newQty ≤ r.qty))
    (hk : (b.index.map (fun e => e.1)).Nodup) :
    b.modifyOrder id newPrice newQty
        = ((b.cancelOrder id).2).placeLimitOrder id r.side newPrice newQty
    ∧ (b.modifyOrder id newPrice newQty).1 ≠ .error .duplicateId := by
  have hcomp : b.modifyOrder id newPrice newQty
      = ((b.cancelOrder id).2).placeLimitOrder id r.side newPrice newQty := by
    simp only [Book.modifyOrder, hl, hr, if_neg hslow, Book.cancelOrder]
  refine ⟨hcomp, ?_⟩
  rw [hcomp]
  have hnone : idxLookup ((b.cancelOrder id).2).index id = none := by
    simp only [Book.cancelOrder, hl]
    exact idxLookup_remove_self hk hl
  have hI : ¬ ((idxLookup ((b.cancelOrder id).2).index id).isSome = true) := by
    rw [hnone]
    simp
  unfold Book.placeLimitOrder
  rw [if_neg hI]
  by_cases h0 : (((b.cancelOrder id).2).runMatch id r.side newPrice
      newQty).remaining = 0
  · rw [if_pos h0]
    simp
  · rw [if_neg h0]
    rcases hfl : (((b.cancelOrder id).2).runMatch id r.side newPrice
        newQty).book.freeList with _ | ⟨recycled, fl⟩
    · simp only [hfl]
      by_cases hcap : (((b.cancelOrder id).2).runMatch id r.side newPrice
          newQty).book.usedSlots
          < (((b.cancelOrder id).2).runMatch id r.side newPrice newQty).book.capSlots
      · rw [if_pos hcap]
        simp
      · rw [if_neg hcap]
        simp
    · simp only [hfl]
      simp

/-- Inversion of a placement that left a resting record: the slot either
came off the free list (stack top; arena untouched) or, with the free list
empty, was bump-allocated (usedSlots grows by one). -/
theorem place_ok_some_inversion {b b2 : Book} {id : Nat} {side : Side}
    {price qty a : Nat} {tr : List Trade}
    (h : b.placeLimitOrder id side price qty = (.ok (some a, tr), b2)) :
    (b.freeList = a :: b2.freeList ∧ b2.usedSlots = b.usedSlots)
    ∨ (b.freeList = [] ∧ b2.freeList = [] ∧ b2.usedSlots = b.usedSlots + 1) := by
  unfold Book.placeLimitOrder at h
  by_cases hI : (idxLookup b.index id).isSome
  · rw [if_pos hI] at h
    simp at h
  · rw [if_neg hI] at h
    by_cases h0 : (b.runMatch id side price qty).remaining = 0
    · rw [if_pos h0] at h
      simp at h
    · rw [if_neg h0] at h
      rcases hfl : (b.runMatch id side price qty).book.freeList with _ | ⟨rec, fl⟩
      · simp only [hfl] at h
        by_cases hcap : (b.runMatch id side price qty).book.usedSlots
            < (b.runMatch id side price qty).book.capSlots
        · rw [if_pos hcap] at h
          rw [Prod.mk.injEq] at h
          right
          refine ⟨?_, ?_, ?_⟩
          · rw [← runMatch_freeList b id side price qty]
            exact hfl
          · rw [← h.2, linkNew_freeList]
          · rw [← h.2]
            simp only [linkNew_usedSlots, runMatch_usedSlots]
        · rw [if_neg hcap] at h
          simp at h
      · simp only [hfl] at h
        rw [Prod.mk.injEq] at h
        have ha : rec = a := by
          have h1 := h.1
          simp only [Except.ok.injEq, Prod.mk.injEq, Option.some.injEq] at h1
          exact h1.1
        subst ha
        left
        refine ⟨?_, ?_⟩
        · rw [← runMatch_freeList b id side price qty, hfl, ← h.2, linkNew_freeList]
        · rw [← h.2, linkNew_usedSlots]
          exact runMatch_usedSlots b id side price qty

theorem c9_modify_slow_path_witness :
    idxLookup ((Book.new 4).applyOps [Op.place 1 Side.Sell 100 10,
        Op.place 2 Side.Sell 101 10]).index 1 = some 0
    ∧ ((Book.new 4).applyOps [Op.place 1 Side.Sell 100 10,
        Op.place 2 Side.Sell 101 10]).modifyOrder 1 102 10
      = ((((Book.new 4).applyOps [Op.place 1 Side.Sell 100 10,
          Op.place 2 Side.Sell 101 10]).cancelOrder 1).2).placeLimitOrder 1
          Side.Sell 102 10
    ∧ (((Book.new 4).applyOps [Op.place 1 Side.Sell 100 10,
        Op.place 2 Side.Sell 101 10]).modifyOrder 1 102 10).1
      ≠ .error .duplicateId := by
  have h := c9_modify_slow_path
    ((Book.new 4).applyOps [Op.place 1 Side.Sell 100 10,
      Op.place 2 Side.Sell 101 10]) 1 0 102 10
    { id := 1, price := 100, qty := 10, side := Side.Sell, addr := 0, arrival := 0 }
    rfl rfl (by decide) (by decide)
  exact ⟨rfl, h.1, h.2⟩

/-- Inversion of a successful cancel: the identifier was indexed and its
slot was pushed onto the free list; the arena is untouched. -/
theorem cancel_ok_inversion {b b2 : Book} {id cid : Nat}
    (h : b.cancelOrder id = (.ok cid, b2)) :
    ∃ a, idxLookup b.index id = some a ∧ b2.freeList = a :: b.freeList
      ∧ b2.usedSlots = b.usedSlots := by
  cases hl : idxLookup b.index id with
  | none =>
    simp only [Book.cancelOrder, hl] at h
    simp at h
  | some a =>
    simp only [Book.cancelOrder, hl] at h
    rw [Prod.mk.injEq] at h
    refine ⟨a, rfl, ?_, ?_⟩
    · rw [← h.2]
    · rw [← h.2]

/-- The book just before the place-cancel-place cycle of the C6
counterexample: one slot has already been allocated and recycled, so the
free list is non-empty. -/
def c6Pre : Book :=
  (Book.new 4).applyOps [Op.place 9 Side.Sell 100 5, Op.cancel 9]

/-- State after the first place of the cycle. -/
def c6B1 : Book := (c6Pre.placeLimitOrder 1 Side.Sell 100 5).2

/-- State after the cancel of the cycle. -/
def c6B2 : Book := (c6B1.cancelOrder 1).2

/-- State after the second place of the cycle. -/
def c6B3 : Book := (c6B2.placeLimitOrder 1 Side.Sell 100 5).2

/-- C6, counterexample to the claim as stated: a place, cancel, place cycle
with matching parameters and no matching, run on a book whose free list
already holds one slot.  Every step succeeds with no trades, yet free_slots
after the second place is 0 while its value before the cycle was 1: the
cycle nets one resting order, so free_slots equals its value after the
FIRST place, not its value before the cycle. -/
theorem c6_counterexample :
    (c6Pre.placeLimitOrder 1 Side.Sell 100 5).1 = .ok (some 0, [])
    ∧ (c6B1.cancelOrder 1).1 = .ok 1
    ∧ (c6B2.placeLimitOrder 1 Side.Sell 100 5).1 = .ok (some 0, [])
    ∧ c6Pre.freeSlots = 1
    ∧ c6B3.freeSlots = 0
    ∧ c6B3.freeSlots ≠ c6Pre.freeSlots :=
  ⟨rfl, rfl, rfl, rfl, rfl, by decide⟩

/-- C6 (amended): for a place, cancel, place cycle with matching parameters
and no matching, used_bytes after the second place equals used_bytes after
the first place, and free_slots after the second place equals free_slots
after the first place, because the second place pops the just-recycled slot
before touching the arena.  (This equals the value before the whole cycle
exactly when the free list was empty before the cycle.) -/
theorem c6_recycle_cycle (b b1 b2 b3 : Book) (id1 id2 cid : Nat) (side : Side)
    (price qty a1 a2 : Nat)
    (_h1 : b.placeLimitOrder id1 side price qty = (.ok (some a1, []), b1))
    (h2 : b1.cancelOrder id1 = (.ok cid, b2))
    (h3 : b2.placeLimitOrder id2 side price qty = (.ok (some a2, []), b3)) :
    b3.usedBytes = b1.usedBytes ∧ b3.freeSlots = b1.freeSlots
      ∧ b3.usedSlots = b1.usedSlots := by
  rcases cancel_ok_inversion h2 with ⟨ac, hlc, h2f, h2u⟩
  rcases place_ok_some_inversion h3 with ⟨h3f, h3u⟩ | ⟨h3e, -, -⟩
  · have hfl : b3.freeList = b1.freeList := by
      rw [h2f] at h3f
      simp only [List.cons.injEq] at h3f
      exact h3f.2.symm
    refine ⟨?_, ?_, ?_⟩
    · unfold Book.usedBytes
      rw [h3u, h2u]
    · unfold Book.freeSlots
      rw [hfl]
    · rw [h3u, h2u]
  · rw [h2f] at h3e
    exact absurd h3e (List.cons_ne_nil _ _)

theorem c6_recycle_cycle_witness :
    c6Pre.placeLimitOrder 1 Side.Sell 100 5 = (.ok (some 0, []), c6B1)
    ∧ c6B1.cancelOrder 1 = (.ok 1, c6B2)
    ∧ c6B2.placeLimitOrder 1 Side.Sell 100 5 = (.ok (some 0, []), c6B3)
    ∧ c6B3.usedBytes = c6B1.usedBytes ∧ c6B3.freeSlots = c6B1.freeSlots
      ∧ c6B3.usedSlots = c6B1.usedSlots := by
  have h := c6_recycle_cycle c6Pre c6B1 c6B2 c6B3 1 1 1 Side.Sell 100 5 0 0
    rfl rfl rfl
  exact ⟨rfl, rfl, rfl, h.1, h.2.1, h.2.2⟩

/-- The book after fully filling the resting maker of Scenario C1: place
Sell 5 at 100 (id 1), then place Buy 5 at 100 (id 2). -/
def c1Book : Book :=
  (Book.new 4).applyOps [Op.place 1 Side.Sell 100 5, Op.place 2 Side.Buy 100 5]

/-- C1, exhibit of the code defect: after a maker is fully filled,
execute_match only unlinks it (book.remove_order); the id stays in
order_index and the slot is never pushed to the free list.  At this input
the trade happens and both chains are empty, but id 1 is still indexed
(active_orders counts it), free_slots is 0, and the zero-quantity record
survives in the arena reachable through the index — not the full removal
the specification requires. -/
theorem c1_full_fill_leaves_ghost :
    ((Book.new 4).applyOps [Op.place 1 Side.Sell 100 5]).placeLimitOrder 2
        Side.Buy 100 5
      = (.ok (none, [{ maker_id := 1, taker_id := 2, price := 100,
                       quantity := 5, maker_side := Side.Sell }]), c1Book)
    ∧ idxLookup c1Book.index 1 = some 0
    ∧ c1Book.activeOrders = 1
    ∧ c1Book.freeSlots = 0
    ∧ c1Book.bids = []
    ∧ c1Book.asks = []
    ∧ c1Book.ghosts
        = [{ id := 1, price := 100, qty := 0, side := Side.Sell,
             addr := 0, arrival := 0 }] :=
  ⟨rfl, rfl, rfl, rfl, rfl, rfl, rfl⟩

/-- The book of the C2 exhibit: capacity one order, filled by a resting
Sell 5 at 100 (id 1); used bytes equal capacity and the free list is
empty. -/
def c2Book : Book := (Book.new 1).applyOps [Op.place 1 Side.Sell 100 5]

/-- C2, exhibit of the code defect: placing Buy 9 at 110 (id 2) against the
full arena first matches the resting maker (one trade of quantity 5,
remaining 4), then needs a record; the free list is empty and the arena is
at capacity, and the source has no error path at the allocation site — the
arena alloc returns a bare reference and aborts on exhaustion (capacityAbort
in this model), so no ExhaustedCapacity error is returned to the caller and
the already-generated partial-fill trades are lost instead of being
returned. -/
theorem c2_exhaustion_aborts :
    (c2Book.runMatch 2 Side.Buy 110 9).trades
      = [{ maker_id := 1, taker_id := 2, price := 100, quantity := 5,
           maker_side := Side.Sell }]
    ∧ (c2Book.runMatch 2 Side.Buy 110 9).remaining = 4
    ∧ c2Book.freeSlots = 0
    ∧ c2Book.usedSlots = c2Book.capSlots
    ∧ c2Book.placeLimitOrder 2 Side.Buy 110 9
      = (.error .capacityAbort, (c2Book.runMatch 2 Side.Buy 110 9).book) :=
  ⟨rfl, rfl, rfl, rfl, rfl⟩

end LOB
